import Mathlib

/-!
Shallow embedding of the KickWithReverb generative pipeline
(`kick_gen_trainer` / `pytorch` sources) and proofs about it.

Python strings are modelled as `List Char`; float arithmetic is modelled
exactly over `ℚ` (the claims under study are structural, not about
floating-point rounding); the opaque float square root used by the DDIM
sampler is an abstract parameter `sqrt : ℚ → ℚ`; tensors are modelled as
functions `ι → ℚ` (elementwise semantics) or as `List ℚ` where the code
manipulates 1-D buffers.
-/

/-- Python strings, modelled as lists of characters. -/
abbrev Str : Type := List Char

/-- `str.lower()` (ASCII case folding, the only case appearing in the data). -/
def strLower (s : Str) : Str := List.map Char.toLower s

/-- `str.strip()`: drop whitespace from both ends. -/
def strStrip (s : Str) : Str :=
  ((List.dropWhile Char.isWhitespace s).reverse.dropWhile Char.isWhitespace).reverse

/-- `str.replace(",", " ")` (single-character pattern, so an elementwise map). -/
def replaceCommaSpace (s : Str) : Str :=
  List.map (fun c => if c = ',' then ' ' else c) s

/-- Split a character list at every character satisfying `p`; the separator
characters are dropped and empty pieces are kept (as Python `split(sep)` does). -/
def splitChars (p : Char → Bool) : List Char → List Str
  | [] => [[]]
  | c :: cs =>
    let rest := splitChars p cs
    if p c then [] :: rest
    else match rest with
      | [] => [[c]]
      | piece :: more => (c :: piece) :: more

/-- `str.split()` with no argument: split on whitespace runs, dropping empties. -/
def pySplitWs (s : Str) : List Str :=
  (splitChars (fun c => c.isWhitespace) s).filter (fun w => ¬ w.isEmpty)

/-- `str.split(",")`: split on commas, keeping empty pieces. -/
def pySplitComma (s : Str) : List Str := splitChars (fun c => c = ',') s

/-! ### `parse_prompt` (inference/generate.py) -/

/-- The lookup function of the dict `{kw: i for i, kw in enumerate(vocab)}`:
for a duplicated key the later index wins, exactly as for a Python dict
comprehension. -/
def kwToIdx (vocab : List Str) (w : Str) : Option Nat :=
  vocab.enum.foldl (fun acc p => if p.2 = w then some p.1 else acc) none

/-- `parse_prompt(prompt, vocab)`: replace commas by spaces, lowercase, split on
whitespace, strip each word, and append the dict index of every word found in
the vocabulary, in the order the words occur in the prompt. -/
def parse_prompt (prompt : Str) (vocab : List Str) : List Nat :=
  (pySplitWs (strLower (replaceCommaSpace prompt))).foldl
    (fun toks w =>
      match kwToIdx vocab (strStrip w) with
      | some i => toks ++ [i]
      | none => toks)
    []

/-! ### `build_vocab` (models/text_encoder.py) -/

/-- Lexicographic comparison on character lists (Python `sorted` on `str`,
by code point). -/
def strLe : Str → Str → Bool
  | [], _ => true
  | _ :: _, [] => false
  | a :: as, b :: bs => if a < b then true else if b < a then false else strLe as bs

/-- One CSV row's contribution: `row["keywords"].split(",")`, each piece
stripped and lowercased, empty results dropped (`if kw:`). -/
def rowTokens (row : Str) : List Str :=
  ((pySplitComma row).map (fun kw => strLower (strStrip kw))).filter
    (fun kw => ¬ kw.isEmpty)

/-- All (normalized, nonempty) keyword occurrences of the whole CSV, one entry
per occurrence, in row order. -/
def allTokens (rows : List Str) : List Str := rows.flatMap rowTokens

/-- `build_vocab`: count occurrences of each normalized keyword, keep those
with at least `minCount` occurrences, and sort the surviving keywords. -/
def build_vocab (rows : List Str) (minCount : Nat) : List Str :=
  let toks := allTokens rows
  ((toks.dedup).filter (fun kw => minCount ≤ toks.count kw)).mergeSort strLe

section StrLeFacts

theorem strLe_total : ∀ a b : Str, strLe a b || strLe b a := by
  intro a
  induction a with
  | nil => intro b; simp [strLe]
  | cons x xs ih =>
    intro b
    cases b with
    | nil => simp [strLe]
    | cons y ys =>
      by_cases hxy : x < y
      · simp [strLe, hxy]
      · by_cases hyx : y < x
        · simp [strLe, hxy, hyx]
        · simp only [strLe, if_neg hxy, if_neg hyx]
          exact ih ys

theorem strLe_trans : ∀ a b c : Str, strLe a b → strLe b c → strLe a c := by
  intro a
  induction a with
  | nil => intro b c _ _; simp [strLe]
  | cons x xs ih =>
    intro b c hab hbc
    cases b with
    | nil => simp [strLe] at hab
    | cons y ys =>
      cases c with
      | nil => simp [strLe] at hbc
      | cons z zs =>
        simp only [strLe] at hab hbc ⊢
        by_cases hxy : x < y
        · by_cases hyz : y < z
          · simp [lt_trans hxy hyz]
          · by_cases hzy : z < y
            · simp only [if_neg hyz, if_pos hzy] at hbc
              simp at hbc
            · have hyz' : y = z := le_antisymm (not_lt.mp hzy) (not_lt.mp hyz)
              subst hyz'
              simp [hxy]
        · by_cases hyx : y < x
          · simp only [if_neg hxy, if_pos hyx] at hab
            simp at hab
          · have hxy' : x = y := le_antisymm (not_lt.mp hyx) (not_lt.mp hxy)
            subst hxy'
            simp only [if_neg hxy] at hab
            by_cases hyz : x < z
            · simp [hyz]
            · by_cases hzy : z < x
              · simp only [if_neg hyz, if_pos hzy] at hbc
                simp at hbc
              · simp only [if_neg hyz, if_neg hzy] at hbc ⊢
                exact ih ys zs hab hbc

theorem strLe_antisymm : ∀ a b : Str, strLe a b → strLe b a → a = b := by
  intro a
  induction a with
  | nil =>
    intro b _ hba
    cases b with
    | nil => rfl
    | cons y ys => simp [strLe] at hba
  | cons x xs ih =>
    intro b hab hba
    cases b with
    | nil => simp [strLe] at hab
    | cons y ys =>
      simp only [strLe] at hab hba
      by_cases hxy : x < y
      · simp only [if_neg (asymm hxy), if_pos hxy] at hba
        simp at hba
      · by_cases hyx : y < x
        · simp only [if_neg hxy, if_pos hyx] at hab
          simp at hab
        · have hxy' : x = y := le_antisymm (not_lt.mp hyx) (not_lt.mp hxy)
          subst hxy'
          simp only [if_neg hxy] at hab hba
          rw [ih ys hab hba]

instance : IsAntisymm Str (fun a b => strLe a b = true) :=
  ⟨fun a b hab hba => strLe_antisymm a b hab hba⟩

end StrLeFacts

/-! ### `NoiseScheduler` (pytorch/models/diffusion.py) -/

/-- `torch.linspace(a, b, n)`: `n` evenly spaced points from `a` to `b`
(a single point is `a` itself; zero points give the empty table). -/
def linspaceQ (a b : ℚ) (n : Nat) : List ℚ :=
  if n = 1 then [a]
  else (List.range n).map (fun (i : Nat) => a + (i : ℚ) * (b - a) / ((n : ℚ) - 1))

/-- `torch.cumprod` with running accumulator. -/
def cumprodAux (acc : ℚ) : List ℚ → List ℚ
  | [] => []
  | x :: xs => (acc * x) :: cumprodAux (acc * x) xs

/-- `torch.cumprod(l, dim=0)`. -/
def cumprod (l : List ℚ) : List ℚ := cumprodAux 1 l

/-- The precomputed tables of `NoiseScheduler.__init__`. -/
structure NoiseScheduler where
  betas : List ℚ
  alphas : List ℚ
  alpha_bars : List ℚ

/-- The table construction of `NoiseScheduler.__init__` for a nonnegative
number of timesteps: `betas = linspace(beta_start, beta_end, T)`,
`alphas = 1 - betas`, `alpha_bars = cumprod(alphas)`. -/
def NoiseScheduler.ofParams (T : Nat) (betaStart betaEnd : ℚ) : NoiseScheduler :=
  let betas := linspaceQ betaStart betaEnd T
  let alphas := betas.map (fun b => 1 - b)
  { betas := betas, alphas := alphas, alpha_bars := cumprod alphas }

/-- `NoiseScheduler(timesteps, beta_start, beta_end)` with the fallibility of
the underlying library call: `torch.linspace` raises only when the number of
steps is negative; every other parameter combination constructs the tables. -/
def NoiseScheduler.make (T : Int) (betaStart betaEnd : ℚ) : Option NoiseScheduler :=
  if T < 0 then none
  else some (NoiseScheduler.ofParams T.toNat betaStart betaEnd)

/-! ### `DDIMSampler` (inference/generate.py)

Latent tensors are functions `ι → ℚ` over an abstract index type `ι`
(covering batch, channel and spatial axes at once); the noise-prediction
net is an abstract function `model`; the float square root is an abstract
parameter `sqrt`. -/

/-- `list(range(start, -1, -step))` for positive `step`: the descending
arithmetic sequence `start, start - step, ...` down to the last value `≥ 0`. -/
def pyRangeDown (start step : Nat) : List Nat :=
  (List.range ((start + step) / step)).map (fun i => start - i * step)

/-- The timestep sub-sequence of `DDIMSampler.__init__`:
`step_size = total // num_steps`, `list(range(total-1, -1, -step_size))[:num_steps]`.
`none` models the exceptions Python raises when `num_steps = 0`
(`ZeroDivisionError`) or `step_size = 0` (`range` with zero step). -/
def ddimTimesteps (total numSteps : Nat) : Option (List Nat) :=
  if total / numSteps = 0 then none
  else some ((pyRangeDown (total - 1) (total / numSteps)).take numSteps)

/-- The classifier-free-guidance branch of `DDIMSampler.sample`:
if `uncond is not None and cfg_scale > 1.0` combine the two predictions
elementwise as `noise_uncond + cfg_scale * (noise_cond - noise_uncond)`,
else use the conditioned prediction. -/
def cfgNoise {ι γ : Type} (model : (ι → ℚ) → Nat → γ → (ι → ℚ))
    (x : ι → ℚ) (t : Nat) (cond : γ) (uncond : Option γ) (cfgScale : ℚ) : ι → ℚ :=
  match uncond with
  | some u =>
    if 1 < cfgScale then
      fun j => model x t u j + cfgScale * (model x t cond j - model x t u j)
    else model x t cond
  | none => model x t cond

/-- One DDIM state update (`eta = 0`, deterministic):
`x0_pred = (x - sqrt(1 - ab_t) * noise) / sqrt(ab_t)`,
`dir_xt = sqrt(1 - ab_prev) * noise`, new state
`sqrt(ab_prev) * x0_pred + dir_xt`. -/
def ddimUpdate {ι : Type} (sqrt : ℚ → ℚ) (abT abPrev : ℚ)
    (noisePred x : ι → ℚ) : ι → ℚ :=
  fun j =>
    let x0Pred := (x j - sqrt (1 - abT) * noisePred j) / sqrt abT
    let dirXt := sqrt (1 - abPrev) * noisePred j
    sqrt abPrev * x0Pred + dirXt

/-- The loop of `DDIMSampler.sample` over the remaining timesteps: at each
timestep the guided noise prediction is formed, `alpha_bar_prev` is read from
the next selected timestep (`1` at the last one), and the state is updated. -/
def ddimSampleLoop {ι γ : Type} (alphaBars : Nat → ℚ) (sqrt : ℚ → ℚ)
    (model : (ι → ℚ) → Nat → γ → (ι → ℚ)) (cond : γ) (uncond : Option γ)
    (cfgScale : ℚ) : List Nat → (ι → ℚ) → (ι → ℚ)
  | [], x => x
  | t :: rest, x =>
    let noisePred := cfgNoise model x t cond uncond cfgScale
    let abPrev : ℚ := match rest with | [] => 1 | tPrev :: _ => alphaBars tPrev
    ddimSampleLoop alphaBars sqrt model cond uncond cfgScale rest
      (ddimUpdate sqrt (alphaBars t) abPrev noisePred x)

/-- `DDIMSampler(scheduler, num_steps).sample(model, shape, cond, uncond,
cfg_scale)` with initial noise `x0` standing for the `torch.randn` draw:
run the loop over the selected timesteps. -/
def ddimSample {ι γ : Type} (total numSteps : Nat) (alphaBars : Nat → ℚ)
    (sqrt : ℚ → ℚ) (model : (ι → ℚ) → Nat → γ → (ι → ℚ)) (cond : γ)
    (uncond : Option γ) (cfgScale : ℚ) (x0 : ι → ℚ) : Option (ι → ℚ) :=
  (ddimTimesteps total numSteps).map
    (fun ts => ddimSampleLoop alphaBars sqrt model cond uncond cfgScale ts x0)

/-! Spec-side rendering of the sampler (written from the spec's words, for the
refinement claim C1): indexed iteration `i = 0, 1, ...` over the selected
timesteps, with `ᾱ_prev = ᾱ[ts[i+1]]`, or `1` if `ts[i]` is the last selected
timestep, and the update written as `x0 = (x - √(1-ᾱ_t)·noise)/√ᾱ_t`,
`x_next = √ᾱ_prev·x0 + √(1-ᾱ_prev)·noise`. -/

/-- Spec wording of the per-step state update. -/
def specDdimStep {ι : Type} (sqrt : ℚ → ℚ) (abT abPrev : ℚ)
    (noise x : ι → ℚ) : ι → ℚ :=
  fun j => sqrt abPrev * ((x j - sqrt (1 - abT) * noise j) / sqrt abT)
    + sqrt (1 - abPrev) * noise j

/-- Spec wording of the guided noise prediction: combined iff a null vector is
given and the scale exceeds 1. -/
def specNoisePred {ι γ : Type} (model : (ι → ℚ) → Nat → γ → (ι → ℚ))
    (x : ι → ℚ) (t : Nat) (cond : γ) (uncond : Option γ) (cfgScale : ℚ) : ι → ℚ :=
  if uncond.isSome ∧ 1 < cfgScale then
    fun j =>
      model x t (uncond.getD cond) j
        + cfgScale * (model x t cond j - model x t (uncond.getD cond) j)
  else model x t cond

/-- Spec wording of the whole deterministic reverse-diffusion pass, by index
into the selected timestep list. -/
def specDdimGo {ι γ : Type} (alphaBars : Nat → ℚ) (sqrt : ℚ → ℚ)
    (model : (ι → ℚ) → Nat → γ → (ι → ℚ)) (cond : γ) (uncond : Option γ)
    (cfgScale : ℚ) (ts : List Nat) (i : Nat) (x : ι → ℚ) : ι → ℚ :=
  if h : i < ts.length then
    let t := ts.get ⟨i, h⟩
    let abPrev : ℚ :=
      if h2 : i + 1 < ts.length then alphaBars (ts.get ⟨i + 1, h2⟩) else 1
    specDdimGo alphaBars sqrt model cond uncond cfgScale ts (i + 1)
      (specDdimStep sqrt (alphaBars t) abPrev
        (specNoisePred model x t cond uncond cfgScale) x)
  else x
termination_by ts.length - i

/-! ### `KeywordEncoder` (models/text_encoder.py)

Parameter tensors are modelled exactly: the embedding table is a function
from index to row vector, the projection is an `nn.Linear`
(`out_i = dot(W_i, x) + b_i`), and the null embedding is a plain vector. -/

/-- Dot product of two rational vectors. -/
def dotQ (a b : List ℚ) : ℚ := ((a.zipWith (fun x y => x * y) b).foldl (· + ·) 0)

/-- `nn.Linear`: `W x + b`, one output coordinate per row of `W`. -/
def linearApply (w : List (List ℚ)) (b : List ℚ) (x : List ℚ) : List ℚ :=
  (w.map (fun row => dotQ row x)).zipWith (fun y bi => y + bi) b

/-- Elementwise sum of equal-length vectors (zip semantics as in torch). -/
def addVec (a b : List ℚ) : List ℚ := a.zipWith (· + ·) b

/-- `torch.stack(vs).mean(dim=0)` for a nonempty list of vectors. -/
def meanVec (dim : Nat) (vs : List (List ℚ)) : List ℚ :=
  (vs.foldl addVec (List.replicate dim 0)).map (fun x => x / (vs.length : ℚ))

/-- The parameters of a `KeywordEncoder`. -/
structure KeywordEncoder where
  embedDim : Nat
  embedding : Nat → List ℚ
  projW : List (List ℚ)
  projB : List ℚ
  null_embedding : List ℚ

/-- The per-sample branch of `KeywordEncoder.forward`: the empty index list
maps to the learned null embedding, a nonempty one to the projected mean of
the looked-up embedding rows. -/
def KeywordEncoder.encodeOne (enc : KeywordEncoder) (ids : List Nat) : List ℚ :=
  match ids with
  | [] => enc.null_embedding
  | _ :: _ =>
    linearApply enc.projW enc.projB (meanVec enc.embedDim (ids.map enc.embedding))

/-- `KeywordEncoder.forward`: encode every sample of the batch independently
and stack the results. -/
def KeywordEncoder.forward (enc : KeywordEncoder) (tokenIds : List (List Nat)) :
    List (List ℚ) :=
  tokenIds.map enc.encodeOne

/-! ### `Decoder` output shape (models/autoencoder.py)

The claim under study is about spatial shapes, so the decoder stack is
embedded at the shape level using the exact PyTorch output-size formulas. -/

/-- `nn.Conv2d` output size along one axis (dilation 1). -/
def conv2dOutDim (n k s p : Nat) : Nat := (n + 2 * p - k) / s + 1

/-- `nn.ConvTranspose2d` output size along one axis (dilation 1,
no output padding): `(n - 1) * s - 2 * p + k`. -/
def convT2dOutDim (n k s p : Nat) : Nat := (n - 1) * s + k - 2 * p

/-- A `ResBlock` keeps the spatial size: two 3×3 convolutions with padding 1
(the residual add requires it). -/
def resBlockDim (n : Nat) : Nat := conv2dOutDim (conv2dOutDim n 3 1 1) 3 1 1

/-- One decoder upsampling stage: `ConvTranspose2d(kernel 4, stride 2, pad 1)`. -/
def decoderUpDim (n : Nat) : Nat := convT2dOutDim n 4 2 1

/-- Spatial size along one axis through `Decoder.net`: 1×1 conv, then four
(ResBlock, ConvTranspose2d) stages. -/
def decoderNetDim (n : Nat) : Nat :=
  decoderUpDim (resBlockDim (decoderUpDim (resBlockDim (decoderUpDim (resBlockDim
    (decoderUpDim (resBlockDim (conv2dOutDim n 1 1 0))))))))

/-- Spatial shape of `Decoder.net`'s raw output. -/
def decoderNetDims (h w : Nat) : Nat × Nat := (decoderNetDim h, decoderNetDim w)

/-- `Decoder.forward`: run the stack, then crop `out[:, :, :128, :173]`
(slicing, i.e. `min` on each axis). -/
def decoderForwardDims (h w : Nat) : Nat × Nat :=
  (min (decoderNetDim h) 128, min (decoderNetDim w) 173)

/-- `KickVAE.decode` just calls `self.decoder`. -/
def kickVAEDecodeDims (h w : Nat) : Nat × Nat := decoderForwardDims h w

/-! ### Waveform post-processing in `generate` (inference/generate.py) -/

/-- `SAMPLE_RATE`. -/
def SAMPLE_RATE : Nat := 44100

/-- `TARGET_SAMPLES = int(SAMPLE_RATE * 2.0)`. -/
def TARGET_SAMPLES : Nat := 88200

/-- `fade_start = int(1.0 * SAMPLE_RATE)`. -/
def FADE_START : Nat := 44100

/-- `fade_end = int(1.75 * SAMPLE_RATE)`. -/
def FADE_END : Nat := 77175

/-- `fade_samples = fade_end - fade_start`. -/
def FADE_SAMPLES : Nat := FADE_END - FADE_START

/-- Trim or zero-pad the waveform to exactly `TARGET_SAMPLES` samples. -/
def trimPad (w : List ℚ) : List ℚ :=
  if TARGET_SAMPLES < w.length then w.take TARGET_SAMPLES
  else w ++ List.replicate (TARGET_SAMPLES - w.length) 0

/-- `waveform.abs().max()` (the running maximum of absolute values; the
waveform is nonempty after trim/pad, and `0` is the neutral start). -/
def peak (w : List ℚ) : ℚ := w.foldl (fun a x => max a |x|) 0

/-- The normalization step: scale to peak `0.95`, skipped when the peak is
not positive. -/
def normalizeW (w : List ℚ) : List ℚ :=
  if 0 < peak w then w.map (fun x => x * (95 / 100 / peak w)) else w

/-- `fade = torch.linspace(1.0, 0.0, fade_samples) ** 3`, read at offset `j`. -/
def fadeVal (j : Nat) : ℚ := ((linspaceQ 1 0 FADE_SAMPLES).getD j 0) ^ 3

/-- Indexed map used to express the two in-place slice assignments. -/
def mapWithIdx (f : Nat → ℚ → ℚ) : Nat → List ℚ → List ℚ
  | _, [] => []
  | i, x :: xs => f i x :: mapWithIdx f (i + 1) xs

/-- The fade-out: `waveform[fade_start:fade_end] *= fade` followed by
`waveform[fade_end:] = 0.0`, guarded by `fade_start < len(waveform)`. -/
def applyFade (w : List ℚ) : List ℚ :=
  if FADE_START < w.length then
    mapWithIdx
      (fun i x =>
        if i < FADE_START then x
        else if i < FADE_END then x * fadeVal (i - FADE_START)
        else 0)
      0 w
  else w

/-- The post-processing tail of `generate`: trim/pad, peak-normalize, fade. -/
def postProcess (w : List ℚ) : List ℚ := applyFade (normalizeW (trimPad w))

/-! ### Denoiser training loop (training/train_diffusion.py)

Weight tensors are `ι → ℚ`; the loss/backward computation and the optimizer
rule are abstract parameters (`backward` maps the micro-step index and the
current weights/accumulated gradient to the new accumulated gradient,
`optStep` maps weights and gradient to stepped weights). -/

/-- `EMA.update`: `s = s * decay + p * (1 - decay)` elementwise, with `p`
the current model parameters. -/
def emaUpdate {ι : Type} (decay : ℚ) (shadow p : ι → ℚ) : ι → ℚ :=
  fun j => shadow j * decay + p j * (1 - decay)

/-- State carried across micro-steps of the denoiser training loop. -/
structure TrainState (ι : Type) where
  w : ι → ℚ
  shadow : ι → ℚ
  grad : ι → ℚ

/-- The body of the training loop at micro-step `g` (`global_step = g`):
backward always accumulates gradients; only when `(g + 1) % accum == 0`
does the optimizer step run, followed by `optimizer.zero_grad()` and
`ema.update(model)` on the freshly stepped weights. -/
def microStep {ι : Type} (accum : Nat) (decay : ℚ)
    (backward : Nat → (ι → ℚ) → (ι → ℚ) → (ι → ℚ))
    (optStep : (ι → ℚ) → (ι → ℚ) → (ι → ℚ))
    (g : Nat) (st : TrainState ι) : TrainState ι :=
  let grad2 := backward g st.w st.grad
  if (g + 1) % accum = 0 then
    let w2 := optStep st.w grad2
    { w := w2, shadow := emaUpdate decay st.shadow w2, grad := fun _ => 0 }
  else
    { st with grad := grad2 }

/-- `n` micro-steps of the training loop starting at `global_step = 0`. -/
def trainRun {ι : Type} (accum : Nat) (decay : ℚ)
    (backward : Nat → (ι → ℚ) → (ι → ℚ) → (ι → ℚ))
    (optStep : (ι → ℚ) → (ι → ℚ) → (ι → ℚ)) :
    Nat → TrainState ι → TrainState ι
  | 0, st => st
  | n + 1, st => microStep accum decay backward optStep n
      (trainRun accum decay backward optStep n st)

/-! ## Claims -/

/-- C6: for the fixed latent spatial shape (8, 11) the decoder stack
overshoots to spatial shape (128, 176) and `Decoder.forward` (hence
`KickVAE.decode`) crops — never resizes — the result to exactly the
configured spectrogram shape (128, 173). -/
theorem C6_decoder_output_shape :
    decoderForwardDims 8 11 = (128, 173) ∧
    kickVAEDecodeDims 8 11 = (128, 173) ∧
    decoderNetDims 8 11 = (128, 176) := by
  refine ⟨rfl, rfl, rfl⟩

/-- C8 counterexample: with `T = 10 > 0` and `beta_end = 1/10 ≤ 2/10 =
beta_start`, and likewise with `T = 0`, `NoiseScheduler` construction
succeeds rather than failing, contradicting the claim that `T ≤ 0` or
`beta_end ≤ beta_start` make construction fail. -/
theorem C8_counterexample :
    (NoiseScheduler.make 10 (2 / 10) (1 / 10)).isSome = true ∧
    (NoiseScheduler.make 0 (1 / 10) (2 / 10)).isSome = true := by
  refine ⟨rfl, rfl⟩

/-- C8 (amended): `NoiseScheduler` construction performs no parameter
validation of its own; it fails exactly when the timestep count is negative
(the underlying `torch.linspace` call rejects a negative number of steps),
and succeeds for `T = 0` and for `beta_end ≤ beta_start`. -/
theorem C8_amended_construction (T : Int) (bs be : ℚ) :
    NoiseScheduler.make T bs be = none ↔ T < 0 := by
  by_cases h : T < 0 <;> simp [NoiseScheduler.make, h]

/-- Vocabulary used in the C3 example and counterexample: `hit` has
index 3 and `house` has index 7. -/
def vocab8 : List Str :=
  ["a".toList, "b".toList, "c".toList, "hit".toList,
   "d".toList, "e".toList, "f".toList, "house".toList]

/-- C3 counterexample: against a vocabulary with `hit` at index 3 and
`house` at index 7, the prompt `"house hit"` parses to `[7, 3]` — the order
the tokens appear in the prompt — not to the vocabulary order `[3, 7]` the
claim asserts; the output is not independent of prompt token order. -/
theorem C3_counterexample :
    parse_prompt "house hit".toList vocab8 = [7, 3] ∧
    parse_prompt "house hit".toList vocab8 ≠ [3, 7] := by
  refine ⟨by decide, by decide⟩

theorem parse_prompt_foldl_eq (vocab : List Str) :
    ∀ (ws : List Str) (acc : List Nat),
      ws.foldl
        (fun toks w =>
          match kwToIdx vocab (strStrip w) with
          | some i => toks ++ [i]
          | none => toks)
        acc
      = acc ++ ws.filterMap (fun w => kwToIdx vocab (strStrip w)) := by
  intro ws
  induction ws with
  | nil => intro acc; simp
  | cons w ws ih =>
    intro acc
    simp only [List.foldl_cons, List.filterMap_cons]
    cases h : kwToIdx vocab (strStrip w) with
    | none => simp only [h]; exact ih acc
    | some i => simp only [h, ih (acc ++ [i]), List.append_assoc]; rfl

/-- C3 (amended): `parse_prompt` splits the prompt on whitespace and commas,
lowercases, silently drops tokens not in the vocabulary, and returns the
matched token indices in the order the tokens appear in the prompt text
(`filterMap` over the prompt's words); in particular `"hit house"` against a
vocabulary with `hit` at index 3 and `house` at index 7 parses to `[3, 7]`
(the prompt lists the words in vocabulary order), while `"house hit"` parses
to `[7, 3]`. -/
theorem C3_amended_parse_prompt :
    (∀ (prompt : Str) (vocab : List Str),
      parse_prompt prompt vocab
        = (pySplitWs (strLower (replaceCommaSpace prompt))).filterMap
            (fun w => kwToIdx vocab (strStrip w))) ∧
    parse_prompt "hit house".toList vocab8 = [3, 7] ∧
    parse_prompt "house hit".toList vocab8 = [7, 3] := by
  refine ⟨?_, by decide, by decide⟩
  intro prompt vocab
  unfold parse_prompt
  rw [parse_prompt_foldl_eq]
  simp

theorem linspaceQ_length (a b : ℚ) (n : Nat) : (linspaceQ a b n).length = n := by
  unfold linspaceQ
  by_cases h : n = 1 <;> simp [h]

theorem linspaceQ_getD (a b : ℚ) (n i : Nat) (hi : i < n) (hn : n ≠ 1) :
    (linspaceQ a b n).getD i 0 = a + (i : ℚ) * (b - a) / ((n : ℚ) - 1) := by
  unfold linspaceQ
  rw [if_neg hn, List.getD_eq_getElem?_getD, List.getElem?_map, List.getElem?_range hi]
  rfl

theorem linspaceQ_getD_zero (a b : ℚ) (n : Nat) (hn : 1 ≤ n) :
    (linspaceQ a b n).getD 0 0 = a := by
  by_cases h : n = 1
  · simp [linspaceQ, h]
  · rw [linspaceQ_getD a b n 0 hn h]
    push_cast
    ring

theorem linspaceQ_mem_bounds (a b : ℚ) (n : Nat) (h0 : 0 < a) (hab : a ≤ b)
    (hb : b < 1) : ∀ x ∈ linspaceQ a b n, 0 < x ∧ x < 1 := by
  intro x hx
  unfold linspaceQ at hx
  by_cases h : n = 1
  · rw [if_pos h] at hx
    simp only [List.mem_singleton] at hx
    exact hx ▸ ⟨h0, lt_of_le_of_lt hab hb⟩
  · rw [if_neg h] at hx
    simp only [List.mem_map, List.mem_range] at hx
    obtain ⟨i, hi, rfl⟩ := hx
    have hn2 : 2 ≤ n := by omega
    have hden : (0 : ℚ) < (n : ℚ) - 1 := by
      have : (2 : ℚ) ≤ (n : ℚ) := by exact_mod_cast hn2
      linarith
    have hnum : (0 : ℚ) ≤ (i : ℚ) * (b - a) :=
      mul_nonneg (by positivity) (by linarith)
    have hle : (i : ℚ) ≤ (n : ℚ) - 1 := by
      have : (i : ℚ) + 1 ≤ (n : ℚ) := by exact_mod_cast hi
      linarith
    constructor
    · have : (0 : ℚ) ≤ i * (b - a) / ((n : ℚ) - 1) := div_nonneg hnum (le_of_lt hden)
      linarith
    · have hstep : (i : ℚ) * (b - a) / ((n : ℚ) - 1) ≤ b - a := by
        rw [div_le_iff₀ hden]
        have hba : (0 : ℚ) ≤ b - a := by linarith
        calc (i : ℚ) * (b - a) ≤ ((n : ℚ) - 1) * (b - a) :=
              mul_le_mul_of_nonneg_right hle hba
          _ = (b - a) * ((n : ℚ) - 1) := by ring
      linarith

theorem cumprodAux_length (acc : ℚ) (l : List ℚ) :
    (cumprodAux acc l).length = l.length := by
  induction l generalizing acc with
  | nil => rfl
  | cons x xs ih => simp [cumprodAux, ih]

theorem cumprodAux_getD_strict :
    ∀ (l : List ℚ) (acc : ℚ), 0 < acc → (∀ x ∈ l, 0 < x ∧ x < 1) →
      ∀ i, i + 1 < l.length →
        (cumprodAux acc l).getD (i + 1) 0 < (cumprodAux acc l).getD i 0 := by
  intro l
  induction l with
  | nil => intro acc _ _ i hi; simp at hi
  | cons x xs ih =>
    intro acc hacc hmem i hi
    have hx := hmem x (List.mem_cons_self x xs)
    have haccx : 0 < acc * x := mul_pos hacc hx.1
    cases i with
    | zero =>
      cases xs with
      | nil => simp at hi
      | cons y ys =>
        have hy := hmem y (List.mem_cons_of_mem x (List.mem_cons_self y ys))
        show (cumprodAux (acc * x) (y :: ys)).getD 0 0 < acc * x
        show acc * x * y < acc * x
        calc acc * x * y < acc * x * 1 :=
              mul_lt_mul_of_pos_left hy.2 haccx
          _ = acc * x := by ring
    | succ i =>
      show (cumprodAux (acc * x) xs).getD (i + 1) 0
        < (cumprodAux (acc * x) xs).getD i 0
      exact ih (acc * x) haccx
        (fun z hz => hmem z (List.mem_cons_of_mem x hz)) i (by simpa using hi)

/-- C4: for `T ≥ 1` and `0 < beta_start < beta_end < 1`, the scheduler's
`betas` table is the linear interpolation from `beta_start` to `beta_end`
over `T` points, `alphas = 1 - betas`, `alpha_bars` is the cumulative
product of `alphas`, the `alpha_bars` sequence is strictly decreasing in
the timestep index, and `alpha_bars[0] = 1 - beta_start`. -/
theorem C4_noise_scheduler_tables (T : Nat) (bs be : ℚ)
    (hT : 1 ≤ T) (h0 : 0 < bs) (h1 : bs < be) (h2 : be < 1) :
    (NoiseScheduler.ofParams T bs be).betas = linspaceQ bs be T ∧
    (NoiseScheduler.ofParams T bs be).alphas
      = (NoiseScheduler.ofParams T bs be).betas.map (fun b => 1 - b) ∧
    (NoiseScheduler.ofParams T bs be).alpha_bars
      = cumprod (NoiseScheduler.ofParams T bs be).alphas ∧
    (∀ i, i + 1 < T →
      (NoiseScheduler.ofParams T bs be).alpha_bars.getD (i + 1) 0
        < (NoiseScheduler.ofParams T bs be).alpha_bars.getD i 0) ∧
    (NoiseScheduler.ofParams T bs be).alpha_bars.getD 0 0 = 1 - bs := by
  have hbeta : ∀ x ∈ linspaceQ bs be T, 0 < x ∧ x < 1 :=
    linspaceQ_mem_bounds bs be T h0 (le_of_lt h1) h2
  have halpha : ∀ x ∈ (linspaceQ bs be T).map (fun b => 1 - b), 0 < x ∧ x < 1 := by
    intro x hx
    simp only [List.mem_map] at hx
    obtain ⟨b, hb, rfl⟩ := hx
    have := hbeta b hb
    constructor <;> linarith [this.1, this.2]
  refine ⟨rfl, rfl, rfl, ?_, ?_⟩
  · intro i hi
    show (cumprodAux 1 ((linspaceQ bs be T).map (fun b => 1 - b))).getD (i + 1) 0
      < (cumprodAux 1 ((linspaceQ bs be T).map (fun b => 1 - b))).getD i 0
    exact cumprodAux_getD_strict _ 1 one_pos halpha i
      (by rw [List.length_map, linspaceQ_length]; exact hi)
  · have hne : linspaceQ bs be T ≠ [] := by
      intro hnil
      have := linspaceQ_length bs be T
      rw [hnil] at this
      simp at this
      omega
    obtain ⟨b0, bs', hcons⟩ := List.exists_cons_of_ne_nil hne
    have hb0 : b0 = bs := by
      have := linspaceQ_getD_zero bs be T hT
      rw [hcons] at this
      simpa using this
    show (cumprodAux 1 ((linspaceQ bs be T).map (fun b => 1 - b))).getD 0 0 = 1 - bs
    rw [hcons, hb0]
    show 1 * (1 - bs) = 1 - bs
    ring

/-- Witness for C4 at `T = 3`, `beta_start = 1/10`, `beta_end = 2/10`:
the strict decrease at index 0 and the head value of `alpha_bars`. -/
theorem C4_noise_scheduler_tables_witness :
    (NoiseScheduler.ofParams 3 (1 / 10) (2 / 10)).alpha_bars.getD 1 0
      < (NoiseScheduler.ofParams 3 (1 / 10) (2 / 10)).alpha_bars.getD 0 0 ∧
    (NoiseScheduler.ofParams 3 (1 / 10) (2 / 10)).alpha_bars.getD 0 0
      = 1 - 1 / 10 :=
  ⟨(C4_noise_scheduler_tables 3 (1 / 10) (2 / 10) (by norm_num) (by norm_num)
      (by norm_num) (by norm_num)).2.2.2.1 0 (by norm_num),
   (C4_noise_scheduler_tables 3 (1 / 10) (2 / 10) (by norm_num) (by norm_num)
      (by norm_num) (by norm_num)).2.2.2.2⟩

/-- C5: `KeywordEncoder` maps the empty token list to the dedicated learned
null embedding — a result that never passes through the embedding-lookup or
projection path and depends only on the `null_embedding` parameter (hence
not on vocabulary content); each batch entry is encoded independently of the
others; and with well-formed parameter shapes every encoded vector, for
empty and non-empty token lists alike, has dimension `cond_dim`. -/
theorem C5_keyword_encoder_null (enc : KeywordEncoder) (condDim : Nat)
    (hW : enc.projW.length = condDim) (hB : enc.projB.length = condDim)
    (hN : enc.null_embedding.length = condDim) :
    enc.encodeOne [] = enc.null_embedding ∧
    (∀ enc2 : KeywordEncoder, enc2.null_embedding = enc.null_embedding →
      enc2.encodeOne [] = enc.encodeOne []) ∧
    (∀ (batch : List (List Nat)) (i : Nat),
      (enc.forward batch)[i]? = batch[i]?.map enc.encodeOne) ∧
    (∀ ids, (enc.encodeOne ids).length = condDim) := by
  refine ⟨rfl, ?_, ?_, ?_⟩
  · intro enc2 h
    show enc2.null_embedding = enc.null_embedding
    exact h
  · intro batch i
    exact List.getElem?_map enc.encodeOne batch i
  · intro ids
    cases ids with
    | nil => exact hN
    | cons x xs =>
      show (linearApply enc.projW enc.projB _).length = condDim
      unfold linearApply
      rw [List.length_zipWith, List.length_map, hW, hB, min_self]

/-- Concrete two-dimensional encoder used by the C5 witness. -/
def encC5 : KeywordEncoder :=
  { embedDim := 1
    embedding := fun _ => [1]
    projW := [[2], [3]]
    projB := [1, 1]
    null_embedding := [5, 7] }

/-- Witness for C5: the concrete encoder `encC5` (cond_dim 2) sends the
empty token list to its null embedding, and both the empty and a singleton
token list produce 2-dimensional vectors. -/
theorem C5_keyword_encoder_null_witness :
    encC5.encodeOne [] = encC5.null_embedding ∧
    (encC5.encodeOne []).length = 2 ∧
    (encC5.encodeOne [0]).length = 2 :=
  ⟨(C5_keyword_encoder_null encC5 2 rfl rfl rfl).1,
   (C5_keyword_encoder_null encC5 2 rfl rfl rfl).2.2.2 [],
   (C5_keyword_encoder_null encC5 2 rfl rfl rfl).2.2.2 [0]⟩

/-- C9: in the denoiser training loop body at micro-step `g`
(`global_step = g`), the EMA shadow is updated exactly when
`(g + 1) % accum = 0`: on such micro-steps the optimizer steps the weights
and the shadow is recomputed by the EMA rule from the freshly stepped
weights (i.e. immediately after the optimizer step); on accumulation-only
micro-steps neither the weights nor the shadow change; and running the loop
for `g + 1` micro-steps is the loop body applied at `global_step = g` to the
state after `g` micro-steps. -/
theorem C9_ema_update_timing {ι : Type} (accum : Nat) (decay : ℚ)
    (backward : Nat → (ι → ℚ) → (ι → ℚ) → (ι → ℚ))
    (optStep : (ι → ℚ) → (ι → ℚ) → (ι → ℚ))
    (g : Nat) (st : TrainState ι) :
    ((g + 1) % accum ≠ 0 →
      (microStep accum decay backward optStep g st).shadow = st.shadow ∧
      (microStep accum decay backward optStep g st).w = st.w) ∧
    ((g + 1) % accum = 0 →
      (microStep accum decay backward optStep g st).w
        = optStep st.w (backward g st.w st.grad) ∧
      (microStep accum decay backward optStep g st).shadow
        = emaUpdate decay st.shadow
            ((microStep accum decay backward optStep g st).w)) ∧
    (∀ st0 : TrainState ι,
      trainRun accum decay backward optStep (g + 1) st0
        = microStep accum decay backward optStep g
            (trainRun accum decay backward optStep g st0)) := by
  refine ⟨?_, ?_, fun st0 => rfl⟩
  · intro h
    unfold microStep
    rw [if_neg h]
    exact ⟨rfl, rfl⟩
  · intro h
    unfold microStep
    rw [if_pos h]
    exact ⟨rfl, rfl⟩

/-- Concrete training state over a single weight used by the C9 witness. -/
def stC9 : TrainState Unit :=
  { w := fun _ => 1, shadow := fun _ => 2, grad := fun _ => 3 }

/-- Witness for C9 with accumulation factor 2: micro-step 0 is
accumulation-only (`(0+1) % 2 ≠ 0`) and leaves the shadow and weights
unchanged; micro-step 1 completes the group (`(1+1) % 2 = 0`), steps the
weights and recomputes the shadow from the stepped weights. -/
theorem C9_ema_update_timing_witness :
    ((microStep 2 (1 / 2) (fun _ _ gr => gr) (fun w _ => w) 0 stC9).shadow
        = stC9.shadow ∧
      (microStep 2 (1 / 2) (fun _ _ gr => gr) (fun w _ => w) 0 stC9).w
        = stC9.w) ∧
    ((microStep 2 (1 / 2) (fun _ _ gr => gr) (fun w _ => w) 1 stC9).w
        = stC9.w ∧
      (microStep 2 (1 / 2) (fun _ _ gr => gr) (fun w _ => w) 1 stC9).shadow
        = emaUpdate (1 / 2) stC9.shadow
            ((microStep 2 (1 / 2) (fun _ _ gr => gr) (fun w _ => w) 1 stC9).w)) :=
  ⟨(C9_ema_update_timing 2 (1 / 2) (fun _ _ gr => gr) (fun w _ => w) 0 stC9).1
      (by decide),
   (C9_ema_update_timing 2 (1 / 2) (fun _ _ gr => gr) (fun w _ => w) 1 stC9).2.1
      (by decide)⟩

theorem peakAux_le (l : List ℚ) :
    ∀ acc : ℚ, acc ≤ l.foldl (fun a x => max a |x|) acc := by
  induction l with
  | nil => intro acc; exact le_refl acc
  | cons x xs ih =>
    intro acc
    exact le_trans (le_max_left acc |x|) (ih (max acc |x|))

theorem peak_nonneg (w : List ℚ) : 0 ≤ peak w := peakAux_le w 0

theorem peakAux_mem (l : List ℚ) :
    ∀ (acc x : ℚ), x ∈ l → |x| ≤ l.foldl (fun a z => max a |z|) acc := by
  induction l with
  | nil => intro acc x hx; cases hx
  | cons y ys ih =>
    intro acc x hx
    rcases List.mem_cons.mp hx with h | h
    · subst h
      exact le_trans (le_max_right acc |x|) (peakAux_le ys (max acc |x|))
    · exact ih (max acc |y|) x h

theorem mem_le_peak (w : List ℚ) (x : ℚ) (hx : x ∈ w) : |x| ≤ peak w :=
  peakAux_mem w 0 x hx

theorem getD_abs_le_peak (w : List ℚ) (i : Nat) : |w.getD i 0| ≤ peak w := by
  by_cases h : i < w.length
  · exact mem_le_peak w _ (List.getD_eq_getElem w 0 h ▸ List.getElem_mem h)
  · rw [List.getD_eq_default w 0 (by omega)]
    simpa using peak_nonneg w

theorem peakAux_le_of (l : List ℚ) :
    ∀ (acc B : ℚ), acc ≤ B → (∀ x ∈ l, |x| ≤ B) →
      l.foldl (fun a x => max a |x|) acc ≤ B := by
  induction l with
  | nil => intro acc B hacc _; exact hacc
  | cons y ys ih =>
    intro acc B hacc hmem
    exact ih (max acc |y|) B
      (max_le hacc (hmem y (List.mem_cons_self y ys)))
      (fun x hx => hmem x (List.mem_cons_of_mem y hx))

theorem peakAux_map_mul (k : ℚ) (hk : 0 ≤ k) (l : List ℚ) :
    ∀ acc : ℚ,
      (l.map (fun x => x * k)).foldl (fun a x => max a |x|) (acc * k)
        = (l.foldl (fun a x => max a |x|) acc) * k := by
  induction l with
  | nil => intro acc; rfl
  | cons y ys ih =>
    intro acc
    have habs : |y * k| = |y| * k := by
      rw [abs_mul, abs_of_nonneg hk]
    have hmax : max (acc * k) (|y| * k) = max acc |y| * k :=
      (max_mul_of_nonneg acc |y| hk).symm
    simp only [List.map_cons, List.foldl_cons, habs, hmax]
    exact ih (max acc |y|)

theorem peak_map_mul (k : ℚ) (hk : 0 ≤ k) (w : List ℚ) :
    peak (w.map (fun x => x * k)) = peak w * k := by
  have := peakAux_map_mul k hk w 0
  rw [zero_mul] at this
  exact this

theorem trimPad_length (w : List ℚ) : (trimPad w).length = TARGET_SAMPLES := by
  unfold trimPad
  by_cases h : TARGET_SAMPLES < w.length
  · rw [if_pos h, List.length_take]
    omega
  · rw [if_neg h, List.length_append, List.length_replicate]
    omega

theorem normalizeW_length (w : List ℚ) : (normalizeW w).length = w.length := by
  unfold normalizeW
  by_cases h : 0 < peak w <;> simp [h]

theorem mapWithIdx_length (f : Nat → ℚ → ℚ) :
    ∀ (i : Nat) (l : List ℚ), (mapWithIdx f i l).length = l.length := by
  intro i l
  induction l generalizing i with
  | nil => rfl
  | cons x xs ih => simp [mapWithIdx, ih]

theorem applyFade_length (w : List ℚ) : (applyFade w).length = w.length := by
  unfold applyFade
  by_cases h : FADE_START < w.length
  · rw [if_pos h, mapWithIdx_length]
  · rw [if_neg h]

theorem mapWithIdx_getD (f : Nat → ℚ → ℚ) :
    ∀ (l : List ℚ) (i0 i : Nat),
      (mapWithIdx f i0 l).getD i 0
        = if i < l.length then f (i0 + i) (l.getD i 0) else 0 := by
  intro l
  induction l with
  | nil => intro i0 i; simp [mapWithIdx]
  | cons x xs ih =>
    intro i0 i
    cases i with
    | zero => simp [mapWithIdx]
    | succ i =>
      show (mapWithIdx f (i0 + 1) xs).getD i 0 = _
      rw [ih (i0 + 1) i]
      simp only [List.length_cons, List.getD_cons_succ]
      by_cases h : i < xs.length
      · rw [if_pos h, if_pos (by omega)]
        congr 1
        omega
      · rw [if_neg h, if_neg (by omega)]

theorem fadeVal_bounds (j : Nat) : 0 ≤ fadeVal j ∧ fadeVal j ≤ 1 := by
  unfold fadeVal
  by_cases hj : j < FADE_SAMPLES
  · rw [linspaceQ_getD 1 0 FADE_SAMPLES j hj (by decide)]
    have hcast : ((FADE_SAMPLES : ℚ) - 1) = 33074 := by
      norm_num [FADE_SAMPLES, FADE_END, FADE_START]
    have hjle : (j : ℚ) ≤ 33074 := by
      have : j ≤ 33074 := by
        have : FADE_SAMPLES = 33075 := by decide
        omega
      exact_mod_cast this
    have hjnn : (0 : ℚ) ≤ (j : ℚ) := by positivity
    have hbase0 : (0 : ℚ) ≤ 1 + (j : ℚ) * (0 - 1) / ((FADE_SAMPLES : ℚ) - 1) := by
      rw [hcast]
      have : (j : ℚ) / 33074 ≤ 1 := by
        rw [div_le_one (by norm_num)]
        linarith
      have hr : (j : ℚ) * (0 - 1) / 33074 = -((j : ℚ) / 33074) := by ring
      rw [hr]
      linarith
    have hbase1 : 1 + (j : ℚ) * (0 - 1) / ((FADE_SAMPLES : ℚ) - 1) ≤ 1 := by
      rw [hcast]
      have : (0 : ℚ) ≤ (j : ℚ) / 33074 := by positivity
      have hr : (j : ℚ) * (0 - 1) / 33074 = -((j : ℚ) / 33074) := by ring
      rw [hr]
      linarith
    exact ⟨pow_nonneg hbase0 3, pow_le_one₀ hbase0 hbase1⟩
  · rw [List.getD_eq_default _ _ (by rw [linspaceQ_length]; omega)]
    norm_num

theorem peakAux_replicate (c : ℚ) :
    ∀ (n : Nat) (acc : ℚ),
      (List.replicate n c).foldl (fun a x => max a |x|) acc
        = if n = 0 then acc else max acc |c| := by
  intro n
  induction n with
  | zero => intro acc; rfl
  | succ n ih =>
    intro acc
    rw [List.replicate_succ, List.foldl_cons, ih (max acc |c|)]
    by_cases h : n = 0
    · simp [h]
    · simp [h, max_assoc]

/-- C7: the post-processing tail of `generate` always returns exactly
`TARGET_SAMPLES` samples; when the pre-normalization peak of the
trimmed/padded waveform is positive, normalization rescales it to peak
exactly `0.95`, and when the peak is zero the normalization is skipped
(no division happens); every sample at or after the fade-end index
(1.75 s) of the result is exactly zero; and no sample of the result
exceeds the post-normalization peak in absolute value. -/
theorem C7_post_processing (w : List ℚ) :
    (postProcess w).length = TARGET_SAMPLES ∧
    (0 < peak (trimPad w) → peak (normalizeW (trimPad w)) = 95 / 100) ∧
    (peak (trimPad w) = 0 → normalizeW (trimPad w) = trimPad w) ∧
    (∀ i, FADE_END ≤ i → (postProcess w).getD i 0 = 0) ∧
    (∀ i, |(postProcess w).getD i 0| ≤ peak (normalizeW (trimPad w))) := by
  have hvlen : (normalizeW (trimPad w)).length = TARGET_SAMPLES := by
    rw [normalizeW_length, trimPad_length]
  have hguard : FADE_START < (normalizeW (trimPad w)).length := by
    rw [hvlen]; decide
  have hpp : postProcess w
      = mapWithIdx
          (fun i x =>
            if i < FADE_START then x
            else if i < FADE_END then x * fadeVal (i - FADE_START)
            else 0)
          0 (normalizeW (trimPad w)) := by
    unfold postProcess applyFade
    rw [if_pos hguard]
  refine ⟨?_, ?_, ?_, ?_, ?_⟩
  · rw [hpp, mapWithIdx_length, hvlen]
  · intro hp
    rw [normalizeW, if_pos hp,
      peak_map_mul _ (div_nonneg (by norm_num) (le_of_lt hp)),
      mul_comm, div_mul_cancel₀ _ (ne_of_gt hp)]
  · intro h
    rw [normalizeW, if_neg]
    rw [h]
    exact lt_irrefl 0
  · intro i hi
    rw [hpp, mapWithIdx_getD]
    by_cases hlt : i < (normalizeW (trimPad w)).length
    · rw [if_pos hlt]
      have h1 : ¬ (0 + i < FADE_START) := by
        simp only [FADE_START, FADE_END] at hi ⊢
        omega
      have h2 : ¬ (0 + i < FADE_END) := by
        simp only [FADE_END] at hi ⊢
        omega
      rw [if_neg h1, if_neg h2]
    · rw [if_neg hlt]
  · intro i
    rw [hpp, mapWithIdx_getD]
    by_cases hlt : i < (normalizeW (trimPad w)).length
    · rw [if_pos hlt]
      by_cases hfs : 0 + i < FADE_START
      · rw [if_pos hfs]
        simpa using getD_abs_le_peak (normalizeW (trimPad w)) i
      · rw [if_neg hfs]
        by_cases hfe : 0 + i < FADE_END
        · rw [if_pos hfe]
          have hb := fadeVal_bounds (0 + i - FADE_START)
          have habs : |fadeVal (0 + i - FADE_START)| ≤ 1 := by
            rw [abs_of_nonneg hb.1]
            exact hb.2
          calc |(normalizeW (trimPad w)).getD i 0 * fadeVal (0 + i - FADE_START)|
              = |(normalizeW (trimPad w)).getD i 0|
                  * |fadeVal (0 + i - FADE_START)| := abs_mul _ _
            _ ≤ |(normalizeW (trimPad w)).getD i 0| * 1 :=
                mul_le_mul_of_nonneg_left habs (abs_nonneg _)
            _ = |(normalizeW (trimPad w)).getD i 0| := mul_one _
            _ ≤ peak (normalizeW (trimPad w)) := getD_abs_le_peak _ _
        · rw [if_neg hfe]
          simpa using peak_nonneg (normalizeW (trimPad w))
    · rw [if_neg hlt]
      simpa using peak_nonneg (normalizeW (trimPad w))

/-- Witness for C7: the all-ones waveform of full length has positive peak
and normalizes to peak exactly 0.95; the empty waveform pads to all-zero,
has peak zero and is left unchanged by the (skipped) normalization; the
sample of the post-processed all-ones waveform at the fade-end index is
exactly zero. -/
theorem C7_post_processing_witness :
    peak (normalizeW (trimPad (List.replicate TARGET_SAMPLES (1 : ℚ)))) = 95 / 100 ∧
    normalizeW (trimPad ([] : List ℚ)) = trimPad ([] : List ℚ) ∧
    (postProcess (List.replicate TARGET_SAMPLES (1 : ℚ))).getD FADE_END 0 = 0 := by
  have htp : trimPad (List.replicate TARGET_SAMPLES (1 : ℚ))
      = List.replicate TARGET_SAMPLES (1 : ℚ) := by
    unfold trimPad
    rw [if_neg (by rw [List.length_replicate]; omega)]
    rw [List.length_replicate]
    simp
  have hpk : peak (trimPad (List.replicate TARGET_SAMPLES (1 : ℚ))) = 1 := by
    rw [htp]
    unfold peak
    rw [peakAux_replicate 1 TARGET_SAMPLES 0]
    norm_num [TARGET_SAMPLES]
  have hpk0 : peak (trimPad ([] : List ℚ)) = 0 := by
    unfold trimPad
    rw [if_neg (by simp [TARGET_SAMPLES])]
    rw [List.nil_append]
    unfold peak
    rw [peakAux_replicate 0 _ 0]
    norm_num [TARGET_SAMPLES]
  exact ⟨(C7_post_processing (List.replicate TARGET_SAMPLES (1 : ℚ))).2.1
      (by rw [hpk]; norm_num),
    (C7_post_processing ([] : List ℚ)).2.2.1 hpk0,
    (C7_post_processing (List.replicate TARGET_SAMPLES (1 : ℚ))).2.2.2.1
      FADE_END (le_refl FADE_END)⟩

theorem build_vocab_mem (rows : List Str) (minCount : Nat) (kw : Str) :
    kw ∈ build_vocab rows minCount ↔
      kw ∈ allTokens rows ∧ minCount ≤ (allTokens rows).count kw := by
  unfold build_vocab
  simp only [List.mem_mergeSort, List.mem_filter, List.mem_dedup,
    decide_eq_true_eq]

theorem build_vocab_sorted (rows : List Str) (minCount : Nat) :
    List.Pairwise (fun a b => strLe a b = true) (build_vocab rows minCount) :=
  List.sorted_mergeSort strLe_trans strLe_total _

theorem build_vocab_nodup (rows : List Str) (minCount : Nat) :
    (build_vocab rows minCount).Nodup :=
  ((List.mergeSort_perm _ strLe).nodup_iff).mpr
    (List.Nodup.filter _ (List.nodup_dedup _))

theorem build_vocab_perm_invariant (rows rows2 : List Str) (minCount : Nat)
    (h : rows.Perm rows2) :
    build_vocab rows minCount = build_vocab rows2 minCount := by
  have htoks : (allTokens rows).Perm (allTokens rows2) :=
    h.flatMap_right rowTokens
  have hcount : ∀ kw : Str, (allTokens rows).count kw = (allTokens rows2).count kw :=
    fun kw => htoks.countP_eq (fun x => x == kw)
  have hn1 : ((allTokens rows).dedup.filter
      (fun kw => minCount ≤ (allTokens rows).count kw)).Nodup :=
    List.Nodup.filter _ (List.nodup_dedup _)
  have hn2 : ((allTokens rows2).dedup.filter
      (fun kw => minCount ≤ (allTokens rows2).count kw)).Nodup :=
    List.Nodup.filter _ (List.nodup_dedup _)
  have hperm : ((allTokens rows).dedup.filter
        (fun kw => minCount ≤ (allTokens rows).count kw)).Perm
      ((allTokens rows2).dedup.filter
        (fun kw => minCount ≤ (allTokens rows2).count kw)) := by
    rw [List.perm_ext_iff_of_nodup hn1 hn2]
    intro a
    simp only [List.mem_filter, List.mem_dedup, decide_eq_true_eq,
      htoks.mem_iff, hcount a]
  have hs1 : List.Sorted (fun a b : Str => strLe a b = true)
      (build_vocab rows minCount) := build_vocab_sorted rows minCount
  have hs2 : List.Sorted (fun a b : Str => strLe a b = true)
      (build_vocab rows2 minCount) := build_vocab_sorted rows2 minCount
  have hp : (build_vocab rows minCount).Perm (build_vocab rows2 minCount) := by
    unfold build_vocab
    exact ((List.mergeSort_perm _ strLe).trans hperm).trans
      (List.mergeSort_perm _ strLe).symm
  exact List.eq_of_perm_of_sorted hp hs1 hs2

/-- C10: `build_vocab` returns a duplicate-free, ascending-sorted list
containing exactly the normalized (stripped, lowercased, nonempty) keyword
tokens whose total occurrence count over all rows is at least `min_count`;
the result — and hence every token's index — is invariant under permuting
the CSV rows. -/
theorem C10_build_vocab (rows : List Str) (minCount : Nat) :
    List.Pairwise (fun a b => strLe a b = true) (build_vocab rows minCount) ∧
    (build_vocab rows minCount).Nodup ∧
    (∀ kw, kw ∈ build_vocab rows minCount ↔
      kw ∈ allTokens rows ∧ minCount ≤ (allTokens rows).count kw) ∧
    (∀ kw ∈ build_vocab rows minCount, ¬ kw.isEmpty) ∧
    (∀ rows2, rows.Perm rows2 →
      build_vocab rows minCount = build_vocab rows2 minCount) := by
  refine ⟨build_vocab_sorted rows minCount, build_vocab_nodup rows minCount,
    build_vocab_mem rows minCount, ?_, ?_⟩
  · intro kw hkw
    have := ((build_vocab_mem rows minCount kw).mp hkw).1
    simp only [allTokens, List.mem_flatMap, rowTokens, List.mem_filter] at this
    obtain ⟨row, _, _, hne⟩ := this
    simpa using hne
  · intro rows2 h2
    exact build_vocab_perm_invariant rows rows2 minCount h2

/-- Witness for C10 on a two-row CSV: `deep` (count 2 ≥ 1) is in the
vocabulary and nonempty, and swapping the two rows leaves the vocabulary
unchanged. -/
theorem C10_build_vocab_witness :
    (¬ ("deep".toList : Str).isEmpty) ∧
    build_vocab ["kick,deep".toList, "deep".toList] 1
      = build_vocab ["deep".toList, "kick,deep".toList] 1 :=
  ⟨(C10_build_vocab ["kick,deep".toList, "deep".toList] 1).2.2.2.1
      "deep".toList
      (((C10_build_vocab ["kick,deep".toList, "deep".toList] 1).2.2.1
          "deep".toList).mpr (by decide)),
   (C10_build_vocab ["kick,deep".toList, "deep".toList] 1).2.2.2.2
      ["deep".toList, "kick,deep".toList]
      (List.Perm.swap "deep".toList "kick,deep".toList [])⟩

theorem cfgNoise_eq_specNoisePred {ι γ : Type}
    (model : (ι → ℚ) → Nat → γ → (ι → ℚ)) (x : ι → ℚ) (t : Nat) (cond : γ)
    (uncond : Option γ) (s : ℚ) :
    cfgNoise model x t cond uncond s = specNoisePred model x t cond uncond s := by
  cases uncond with
  | none => simp [cfgNoise, specNoisePred]
  | some u =>
    by_cases h : 1 < s
    · simp [cfgNoise, specNoisePred, h]
    · simp [cfgNoise, specNoisePred, h]

theorem specDdimGo_cons {ι γ : Type} (ab : Nat → ℚ) (sqrt : ℚ → ℚ)
    (model : (ι → ℚ) → Nat → γ → (ι → ℚ)) (cond : γ) (uncond : Option γ)
    (s : ℚ) (t : Nat) (ts : List Nat) :
    ∀ (i : Nat) (y : ι → ℚ),
      specDdimGo ab sqrt model cond uncond s (t :: ts) (i + 1) y
        = specDdimGo ab sqrt model cond uncond s ts i y := by
  have key : ∀ (n i : Nat) (y : ι → ℚ), ts.length - i < n →
      specDdimGo ab sqrt model cond uncond s (t :: ts) (i + 1) y
        = specDdimGo ab sqrt model cond uncond s ts i y := by
    intro n
    induction n with
    | zero => intro i y h; exact absurd h (Nat.not_lt_zero _)
    | succ n ih =>
      intro i y h
      by_cases hi : i < ts.length
      · have hi1 : i + 1 < (t :: ts).length := by
          simpa using Nat.succ_lt_succ hi
        conv_lhs => rw [specDdimGo.eq_def]
        conv_rhs => rw [specDdimGo.eq_def]
        rw [dif_pos hi1, dif_pos hi]
        have hget : (t :: ts).get ⟨i + 1, hi1⟩ = ts.get ⟨i, hi⟩ := rfl
        by_cases h2 : i + 1 < ts.length
        · have h2' : i + 1 + 1 < (t :: ts).length := by
            simpa using Nat.succ_lt_succ h2
          rw [dif_pos h2', dif_pos h2]
          have hget2 : (t :: ts).get ⟨i + 1 + 1, h2'⟩ = ts.get ⟨i + 1, h2⟩ := rfl
          rw [hget, hget2]
          exact ih (i + 1) _ (by omega)
        · have h2' : ¬ (i + 1 + 1 < (t :: ts).length) := by
            simp only [List.length_cons]
            omega
          rw [dif_neg h2', dif_neg h2, hget]
          exact ih (i + 1) _ (by omega)
      · have hi1 : ¬ (i + 1 < (t :: ts).length) := by
          simp only [List.length_cons]
          omega
        conv_lhs => rw [specDdimGo.eq_def]
        conv_rhs => rw [specDdimGo.eq_def]
        rw [dif_neg hi1, dif_neg hi]
  intro i y
  exact key (ts.length - i + 1) i y (by omega)

theorem ddimSampleLoop_cons_nil {ι γ : Type} (ab : Nat → ℚ) (sqrt : ℚ → ℚ)
    (model : (ι → ℚ) → Nat → γ → (ι → ℚ)) (cond : γ) (uncond : Option γ)
    (s : ℚ) (t : Nat) (x : ι → ℚ) :
    ddimSampleLoop ab sqrt model cond uncond s [t] x
      = ddimUpdate sqrt (ab t) 1 (cfgNoise model x t cond uncond s) x := rfl

theorem ddimSampleLoop_cons_cons {ι γ : Type} (ab : Nat → ℚ) (sqrt : ℚ → ℚ)
    (model : (ι → ℚ) → Nat → γ → (ι → ℚ)) (cond : γ) (uncond : Option γ)
    (s : ℚ) (t r : Nat) (rs : List Nat) (x : ι → ℚ) :
    ddimSampleLoop ab sqrt model cond uncond s (t :: r :: rs) x
      = ddimSampleLoop ab sqrt model cond uncond s (r :: rs)
          (ddimUpdate sqrt (ab t) (ab r) (cfgNoise model x t cond uncond s) x) :=
  rfl

theorem ddimSampleLoop_eq_specDdimGo {ι γ : Type} (ab : Nat → ℚ)
    (sqrt : ℚ → ℚ) (model : (ι → ℚ) → Nat → γ → (ι → ℚ)) (cond : γ)
    (uncond : Option γ) (s : ℚ) :
    ∀ (ts : List Nat) (x : ι → ℚ),
      ddimSampleLoop ab sqrt model cond uncond s ts x
        = specDdimGo ab sqrt model cond uncond s ts 0 x := by
  intro ts
  induction ts with
  | nil =>
    intro x
    rw [specDdimGo.eq_def, dif_neg (by simp)]
    rfl
  | cons t rest ih =>
    intro x
    have h0 : 0 < (t :: rest).length := by simp
    conv_rhs => rw [specDdimGo.eq_def]
    rw [dif_pos h0]
    rw [specDdimGo_cons]
    rw [← ih]
    cases rest with
    | nil =>
      rw [dif_neg (show ¬ (0 + 1 < ([t] : List Nat).length) by simp)]
      rw [← cfgNoise_eq_specNoisePred]
      rw [ddimSampleLoop_cons_nil]
      rfl
    | cons r rs =>
      rw [dif_pos (show 0 + 1 < (t :: r :: rs : List Nat).length by simp)]
      rw [← cfgNoise_eq_specNoisePred]
      rw [ddimSampleLoop_cons_cons]
      rfl

/-- C1: `DDIMSampler.sample` computes exactly the deterministic reverse
process the spec describes: over the selected timesteps, the noise
prediction at each step is the guided combination
`noise_uncond + scale * (noise_cond - noise_uncond)` when a null vector is
given and the scale exceeds 1 (the conditioned prediction otherwise), and
the state is updated as
`x := sqrt(abar_prev) * ((x - sqrt(1 - abar_t) * n) / sqrt(abar_t))
      + sqrt(1 - abar_prev) * n`
with `abar_prev = 1` at the last selected timestep; no stochastic term
appears anywhere, so the result is a function of the initial noise, the
model and the inputs alone. -/
theorem C1_ddim_sample_deterministic {ι γ : Type} (total numSteps : Nat)
    (alphaBars : Nat → ℚ) (sqrt : ℚ → ℚ)
    (model : (ι → ℚ) → Nat → γ → (ι → ℚ)) (cond : γ) (uncond : Option γ)
    (cfgScale : ℚ) (x0 : ι → ℚ) :
    ddimSample total numSteps alphaBars sqrt model cond uncond cfgScale x0
      = (ddimTimesteps total numSteps).map
          (fun ts => specDdimGo alphaBars sqrt model cond uncond cfgScale ts 0 x0) := by
  unfold ddimSample
  cases ddimTimesteps total numSteps with
  | none => rfl
  | some ts =>
    simp only [Option.map]
    rw [ddimSampleLoop_eq_specDdimGo]

theorem ddimSampleLoop_scale_one {ι γ : Type} (ab : Nat → ℚ) (sqrt : ℚ → ℚ)
    (model : (ι → ℚ) → Nat → γ → (ι → ℚ)) (cond : γ) (u : γ) :
    ∀ (ts : List Nat) (x : ι → ℚ),
      ddimSampleLoop ab sqrt model cond (some u) 1 ts x
        = ddimSampleLoop ab sqrt model cond none 1 ts x := by
  intro ts
  induction ts with
  | nil => intro x; rfl
  | cons t rest ih =>
    intro x
    have hnoise : cfgNoise model x t cond (some u) 1
        = cfgNoise model x t cond none 1 := by
      simp [cfgNoise]
    cases rest with
    | nil =>
      rw [ddimSampleLoop_cons_nil, ddimSampleLoop_cons_nil, hnoise]
    | cons r rs =>
      rw [ddimSampleLoop_cons_cons, ddimSampleLoop_cons_cons, hnoise, ih]

/-- C2: with guidance scale exactly 1, `DDIMSampler.sample` with any
non-null unconditional embedding returns the same latent as the call with
the null vector omitted (`uncond = None`), for every model, alpha-bar
table, conditioning vector and initial noise — the guidance branch is not
taken at scale 1 and both runs perform identical conditioned-only steps. -/
theorem C2_cfg_scale_one_equiv {ι γ : Type} (total numSteps : Nat)
    (alphaBars : Nat → ℚ) (sqrt : ℚ → ℚ)
    (model : (ι → ℚ) → Nat → γ → (ι → ℚ)) (cond : γ) (u : γ) (x0 : ι → ℚ) :
    ddimSample total numSteps alphaBars sqrt model cond (some u) 1 x0
      = ddimSample total numSteps alphaBars sqrt model cond none 1 x0 := by
  unfold ddimSample
  cases ddimTimesteps total numSteps with
  | none => rfl
  | some ts =>
    simp only [Option.map]
    rw [ddimSampleLoop_scale_one]
